import Mathlib

/- Formal model of the concurrent HTTP file server (server.py).
   Python strings are modelled as lists of characters, clock values as rationals,
   and the filesystem as an abstract oracle of existence / directory / readability
   predicates.  Each definition carries a reference to the Python source it embeds. -/

/-- Python strings, modelled as lists of characters. -/
abbrev Str := List Char

/-- Python whitespace: the characters stripped by str.strip and split on by str.split. -/
def isPySpace (c : Char) : Bool :=
  [' ', '\t', '\n', '\r', '\x0b', '\x0c'].contains c

/-- Python str.split(sep) for a one-character separator, as in request_data.split('\n')
    (server.py line 130) and the '/'-splitting inside posixpath. -/
def splitSep (c : Char) : Str → List Str
  | [] => [[]]
  | x :: xs =>
    let r := splitSep c xs
    if x = c then [] :: r
    else
      match r with
      | [] => [[x]]
      | y :: ys => (x :: y) :: ys

/-- Accumulating helper for splitWs; the first argument is the current token reversed. -/
def splitWsAux : Str → Str → List Str
  | cur, [] => if cur = [] then [] else [cur.reverse]
  | cur, ch :: rest =>
    if isPySpace ch then
      if cur = [] then splitWsAux [] rest else cur.reverse :: splitWsAux [] rest
    else splitWsAux (ch :: cur) rest

/-- Python str.split() with no separator: split on runs of whitespace, dropping empty
    tokens (request_line.split(), server.py line 136). -/
def splitWs (s : Str) : List Str := splitWsAux [] s

/-- Python str.strip() (server.py line 131). -/
def pyStrip (s : Str) : Str :=
  ((s.dropWhile isPySpace).reverse.dropWhile isPySpace).reverse

/-- Hexadecimal digit value, used by percent-decoding. -/
def hexVal (c : Char) : Option ℕ :=
  if '0' ≤ c ∧ c ≤ '9' then some (c.toNat - 48)
  else if 'a' ≤ c ∧ c ≤ 'f' then some (c.toNat - 87)
  else if 'A' ≤ c ∧ c ≤ 'F' then some (c.toNat - 55)
  else none

/-- Model of urllib.parse.unquote (server.py line 159) for single-byte escapes: a %XX
    escape with XX hexadecimal decodes to the character U+00XX when ASCII and to U+FFFD
    otherwise (Python substitutes U+FFFD for bytes it cannot decode; reassembly of
    multi-byte UTF-8 escape sequences is not modelled — no claim depends on the decoded
    characters themselves).  The scan is a three-state machine: the state records
    whether a '%' (and a following first digit) is pending. -/
def unquoteGo : Option (Option Char) → Str → Str
  | none, [] => []
  | some none, [] => ['%']
  | some (some c1), [] => ['%', c1]
  | none, c :: rest =>
    if c = '%' then unquoteGo (some none) rest else c :: unquoteGo none rest
  | some none, c1 :: rest => unquoteGo (some (some c1)) rest
  | some (some c1), c2 :: rest =>
    match hexVal c1, hexVal c2 with
    | some h1, some h2 =>
      (if 16 * h1 + h2 < 128 then Char.ofNat (16 * h1 + h2) else '�')
        :: unquoteGo none rest
    | _, _ =>
      if c1 = '%' then '%' :: unquoteGo (some (some c2)) rest
      else '%' :: c1 ::
        (if c2 = '%' then unquoteGo (some none) rest else c2 :: unquoteGo none rest)

/-- urllib.parse.unquote as called at server.py line 159 (the scan entry point). -/
def unquote (s : Str) : Str := unquoteGo none s

/-- Python str.lower() as applied to file extensions (server.py lines 204 and 206). -/
def strLower (s : Str) : Str := s.map Char.toLower

/-- posixpath.join for the call os.path.join(root, path.lstrip('/'))
    (server.py line 169). -/
def pathJoin (a b : Str) : Str :=
  if (['/'] : Str).isPrefixOf b then b
  else if a = [] ∨ a.getLast? = some '/' then a ++ b
  else a ++ '/' :: b

/-- Stack phase of posixpath.normpath: process the path components, skipping empty
    components and '.', and resolving '..' against the accumulated stack exactly as
    CPython does for absolute and relative inputs. -/
def normParts (initSlash : Bool) : List Str → List Str → List Str
  | acc, [] => acc
  | acc, c :: cs =>
    if c = [] ∨ c = ['.'] then normParts initSlash acc cs
    else if c ≠ ['.', '.'] then normParts initSlash (acc ++ [c]) cs
    else if (¬ initSlash ∧ acc = []) ∨ acc.getLast? = some ['.', '.'] then
      normParts initSlash (acc ++ [c]) cs
    else if acc ≠ [] then normParts initSlash acc.dropLast cs
    else normParts initSlash acc cs

/-- posixpath.normpath. -/
def pathNormpath (p : Str) : Str :=
  if p = [] then ['.']
  else
    let initSlash := (['/'] : Str).isPrefixOf p
    let dbl := (['/', '/'] : Str).isPrefixOf p ∧ ¬ (['/', '/', '/'] : Str).isPrefixOf p
    let comps := normParts initSlash [] (splitSep '/' p)
    let slashes : Str := if initSlash then (if dbl then ['/', '/'] else ['/']) else []
    let joined := slashes ++ List.intercalate ['/'] comps
    if joined = [] then ['.'] else joined

/-- os.path.abspath (server.py lines 33 and 170).  Every path the server canonicalizes
    is already absolute: the root is made absolute at startup and the request path is
    joined onto it.  For absolute inputs abspath coincides with normpath, so the
    cwd-prepending branch for relative inputs is not modelled. -/
def pathAbspath (p : Str) : Str := pathNormpath p

/-- Length of the longest common prefix of two component lists (genericpath.commonprefix
    as used by posixpath.relpath). -/
def commonPrefixLen : List Str → List Str → ℕ
  | a :: as, b :: bs => if a = b then commonPrefixLen as bs + 1 else 0
  | _, _ => 0

/-- posixpath.relpath(path, start) for the call os.path.relpath(absolute_path,
    self.root_dir) (server.py line 416): both arguments are canonicalized, split on '/',
    empty components are discarded, the common prefix is dropped, and the remainder is
    joined behind the necessary '..' steps. -/
def relpathFrom (p start : Str) : Str :=
  let pList := (splitSep '/' (pathAbspath p)).filter (fun c => !c.isEmpty)
  let sList := (splitSep '/' (pathAbspath start)).filter (fun c => !c.isEmpty)
  let i := commonPrefixLen sList pList
  let rel := List.replicate (sList.length - i) ['.', '.'] ++ pList.drop i
  if rel = [] then ['.'] else List.intercalate ['/'] rel

/-- Python str.rstrip('/') (server.py line 425). -/
def rstripSlash (s : Str) : Str :=
  (s.reverse.dropWhile (fun c => c == '/')).reverse

/-- normalize_counter_key (server.py lines 415-426). -/
def normalizeCounterKey (rootDir absPath : Str) (isDir : Bool) : Str :=
  let r0 := relpathFrom absPath rootDir
  let r1 := r0.map (fun c => if c = '\\' then '/' else c)
  let r2 := if r1 = ['.'] ∨ r1 = [] then [] else r1
  let r3 := if ¬ (['/'] : Str).isPrefixOf r2 then (if r2 ≠ [] then '/' :: r2 else ['/'])
            else r2
  let r4 := if isDir ∧ ¬ r3.getLast? = some '/' then r3 ++ ['/'] else r3
  let r5 := if ¬ isDir ∧ r4.getLast? = some '/' then rstripSlash r4 else r4
  if r5 = [] then ['/'] else r5

/-- posixpath.splitext restricted to a basename: a suffix starting at the last dot is an
    extension only when a character other than '.' precedes it within the name. -/
def splitextName (name : Str) : Str × Str :=
  let k := (name.reverse.takeWhile (fun c => c != '.')).length
  if k = name.length then (name, [])
  else
    let cut := name.length - k - 1
    let stem := name.take cut
    let ext := name.drop cut
    if stem.any (fun c => c != '.') then (stem, ext) else (name, [])

/-- posixpath.splitext (server.py line 203). -/
def splitext (p : Str) : Str × Str :=
  let nameLen := (p.reverse.takeWhile (fun c => c != '/')).length
  let dir := p.take (p.length - nameLen)
  let name := p.drop (p.length - nameLen)
  let sn := splitextName name
  (dir ++ sn.1, sn.2)

/-- Abstract filesystem oracle: os.path.exists and os.path.isdir (server.py lines 182
    and 192) and whether reading the file body succeeds (the try-block of send_file,
    server.py lines 216-231). -/
structure FS where
  pathExists : Str → Bool
  isDir : Str → Bool
  readOk : Str → Bool

/-- Server configuration (HTTPServer.__init__, server.py lines 20-46).  The artificial
    handler and counter delays influence timing only, never a functional outcome, and are
    omitted; host and port do not appear in any claim. -/
structure Config where
  rootDir : Str
  mimeTypes : List (Str × Str)
  rateLimit : ℕ
  rateWindow : ℚ

/-- The clamping performed by HTTPServer.__init__ (server.py lines 37-38):
    rate_limit = max(1, rate_limit) and rate_window = max(0.1, rate_window). -/
def mkServerConfig (rootDir : Str) (mimeTypes : List (Str × Str)) (rateLimit : ℕ)
    (rateWindow : ℚ) : Config :=
  ⟨rootDir, mimeTypes, max 1 rateLimit, max (1 / 10) rateWindow⟩

/-- The MIME table of server.py lines 40-46. -/
def defaultMime : List (Str × Str) :=
  [(".html".data, "text/html".data), (".htm".data, "text/html".data),
   (".png".data, "image/png".data), (".pdf".data, "application/pdf".data),
   (".txt".data, "text/plain".data)]

/-- Outcome of one request after admission: either no bytes are written back at all, or
    a response with the given status is sent; counterKey records the key passed to
    increment_counter (server.py line 194) when the increment step runs. -/
inductive HandlerResult where
  | noResponse : HandlerResult
  | response : ℕ → Option Str → HandlerResult
deriving DecidableEq

/-- The URL-path preprocessing of handle_request (server.py lines 159-167): percent
    decoding, query-string stripping, and the '/' to '/index.html' substitution. -/
def effectivePath (rawPath : Str) : Str :=
  let p := unquote rawPath
  let p := p.takeWhile (fun c => c != '?')
  if p = "/".data then "/index.html".data else p

/-- The canonicalized filesystem target of a request path (server.py lines 169-170). -/
def resolveFilePath (cfg : Config) (path : Str) : Str :=
  pathAbspath (pathJoin cfg.rootDir (path.dropWhile (fun c => c == '/')))

/-- Path resolution, counting and dispatch of handle_request (server.py lines 159-199)
    together with the MIME gate and body read of send_file (lines 201-231). -/
def resolveAndServe (cfg : Config) (fs : FS) (rawPath : Str) : HandlerResult :=
  let filePath := resolveFilePath cfg (effectivePath rawPath)
  if ¬ cfg.rootDir.isPrefixOf filePath then HandlerResult.response 403 none
  else if ¬ fs.pathExists filePath then HandlerResult.response 404 none
  else
    let isDir := fs.isDir filePath
    let key := normalizeCounterKey cfg.rootDir filePath isDir
    if isDir then HandlerResult.response 200 (some key)
    else
      match List.lookup (strLower (splitext filePath).2) cfg.mimeTypes with
      | none => HandlerResult.response 415 (some key)
      | some _ =>
        if fs.readOk filePath then HandlerResult.response 200 (some key)
        else HandlerResult.response 500 (some key)

/-- handle_request (server.py lines 125-199): an empty read or a blank request line
    produces no response at all; a request line that does not split into exactly three
    whitespace-separated tokens yields 400; a method other than GET yields 405; otherwise
    the path is resolved and served. -/
def handleRequest (cfg : Config) (fs : FS) (requestData : Str) : HandlerResult :=
  if requestData = [] then HandlerResult.noResponse
  else
    let requestLine := pyStrip ((splitSep '\n' requestData).headI)
    if requestLine = [] then HandlerResult.noResponse
    else
      match splitWs requestLine with
      | [method, rawPath, _] =>
        if method = "GET".data then resolveAndServe cfg fs rawPath
        else HandlerResult.response 405 none
      | _ => HandlerResult.response 400 none

/-- Result of one rate-limiter admission check. -/
structure RateResult where
  allowed : Bool
  retryAfter : ℚ
  remaining : ℤ
  window : List ℚ
deriving DecidableEq

/-- check_rate_limit (server.py lines 446-457), with the per-IP deque of timestamps
    modelled as a list ordered oldest first and time.time() passed in as `now`.  The
    whole check runs under self.rate_lock, so it is modelled as one atomic function. -/
def checkRateLimit (rateLimit : ℕ) (rateWindow : ℚ) (window : List ℚ) (now : ℚ) :
    RateResult :=
  let w := window.dropWhile (fun t => decide (rateWindow < now - t))
  if rateLimit ≤ w.length then
    let retry : ℚ :=
      match w with
      | [] => rateWindow
      | t0 :: _ => rateWindow - (now - t0)
    ⟨false, max 0 retry, (rateLimit : ℤ) - w.length, w⟩
  else
    ⟨true, 0, (rateLimit : ℤ) - (w.length + 1), w ++ [now]⟩

/-- The Retry-After header value str(max(1, math.ceil(retry_after)))
    (server.py line 107). -/
def retryAfterHeaderVal (q : ℚ) : ℤ := max 1 ⌈q⌉

/-- Decimal rendering of a natural number (Python str). -/
def natToStr (n : ℕ) : Str := (toString n).data

/-- Decimal rendering of an integer (Python str). -/
def intToStr (n : ℤ) : Str := (toString n).data

/-- Rendering of the rate window for the X-RateLimit-Window header, modelling the
    f-string format with two decimals of build_rate_headers (server.py line 462) by
    truncation; no claim depends on the rendered digits, only on the header name. -/
def qToFixed2 (q : ℚ) : Str :=
  let s : ℤ := ⌊q * 100⌋
  intToStr (s / 100) ++ ['.'] ++ (if (s % 100).toNat < 10 then ['0'] else []) ++
    natToStr (s % 100).toNat

def hKeyLimit : Str := "X-RateLimit-Limit".data

def hKeyWindow : Str := "X-RateLimit-Window".data

def hKeyRemaining : Str := "X-RateLimit-Remaining".data

def hKeyRetryAfter : Str := "Retry-After".data

/-- build_rate_headers (server.py lines 459-466); a Python dict preserves insertion
    order, so the header mapping is modelled as an association list. -/
def buildRateHeaders (cfg : Config) (remaining : Option ℤ) : List (Str × Str) :=
  [(hKeyLimit, natToStr cfg.rateLimit), (hKeyWindow, qToFixed2 cfg.rateWindow)] ++
    match remaining with
    | some r => [(hKeyRemaining, intToStr (max 0 r))]
    | none => []

/-- build_headers (server.py lines 397-413) as the list of header-block lines; the Date
    value produced by datetime.utcnow() is passed in as a clock oracle string. -/
def buildHeaderLines (status : ℕ) (statusText contentType : Str) (contentLength : ℕ)
    (extraHeaders : List (Str × Str)) (date : Str) : List Str :=
  ["HTTP/1.1 ".data ++ natToStr status ++ [' '] ++ statusText,
   "Date: ".data ++ date,
   "Server: ConcurrentHTTPServer/2.0".data,
   "Content-Type: ".data ++ contentType,
   "Content-Length: ".data ++ natToStr contentLength,
   "Connection: close".data] ++
    extraHeaders.map (fun kv => kv.1 ++ ": ".data ++ kv.2) ++ [[], []]

/-- build_headers returns the lines joined by CRLF (server.py line 413). -/
def buildHeaders (status : ℕ) (statusText contentType : Str) (contentLength : ℕ)
    (extraHeaders : List (Str × Str)) (date : Str) : Str :=
  List.intercalate ['\r', '\n']
    (buildHeaderLines status statusText contentType contentLength extraHeaders date)

/-- Result of handle_client for one connection: the response written back (status and
    the extra headers attached to it), the counter key incremented on behalf of the
    request if any, the updated rate window, and whether the socket was closed. -/
structure ClientResult where
  sent : Option (ℕ × List (Str × Str))
  counterKey : Option Str
  window : List ℚ
  closed : Bool

/-- handle_client (server.py lines 102-123): the admission gate, the choice of extra
    headers (Retry-After without a remaining count on rejection, the three rate headers
    otherwise), dispatch to handle_request, and the finally-clause close. -/
def handleClient (cfg : Config) (fs : FS) (window : List ℚ) (now : ℚ)
    (requestData : Str) : ClientResult :=
  let r := checkRateLimit cfg.rateLimit cfg.rateWindow window now
  if r.allowed = false then
    ⟨some (429, buildRateHeaders cfg none ++
        [(hKeyRetryAfter, intToStr (retryAfterHeaderVal r.retryAfter))]),
      none, r.window, true⟩
  else
    match handleRequest cfg fs requestData with
    | HandlerResult.noResponse => ⟨none, none, r.window, true⟩
    | HandlerResult.response st key =>
      ⟨some (st, buildRateHeaders cfg (some r.remaining)), key, r.window, true⟩

/-- Successive admission checks for one client IP (repeated calls of check_rate_limit
    threading the per-IP deque); the Boolean is true when every request was admitted. -/
def admitAll (rateLimit : ℕ) (rateWindow : ℚ) : List ℚ → List ℚ → Bool × List ℚ
  | w, [] => (true, w)
  | w, t :: ts =>
    let r := checkRateLimit rateLimit rateWindow w t
    let rest := admitAll rateLimit rateWindow r.window ts
    (r.allowed && rest.1, rest.2)

/-- Program counter of one worker thread inside increment_counter (server.py lines
    428-433, serialized mode): idle, holding the lock, having read the current count,
    having written the incremented count, finished. -/
inductive PC where
  | idle
  | locked
  | readDone
  | written
  | done
deriving DecidableEq

/-- Actions of the serialized increment protocol. -/
inductive CAct where
  | acquire
  | readC
  | writeC
  | release
deriving DecidableEq

/-- Shared state of the serialized counter for a single key: the mutex owner, the stored
    count, every thread's private read register, and every thread's program counter. -/
structure CState where
  lock : Option ℕ
  counter : ℕ
  regs : List ℕ
  pcs : List PC
deriving DecidableEq

/-- One interleaving step of thread i under serialized mode.  The acquire and release
    guards model `with self.counter_lock`; readC and writeC model the read-modify-write
    `self.request_counts[key] += 1`; the optional time.sleep inside the critical section
    (server.py lines 431-432) does not change any state and needs no step. -/
def cstep (s : CState) (i : ℕ) : CAct → Option CState
  | CAct.acquire =>
    if s.lock = none ∧ s.pcs.get? i = some PC.idle then
      some ⟨some i, s.counter, s.regs, s.pcs.set i PC.locked⟩
    else none
  | CAct.readC =>
    if s.lock = some i ∧ s.pcs.get? i = some PC.locked then
      some ⟨s.lock, s.counter, s.regs.set i s.counter, s.pcs.set i PC.readDone⟩
    else none
  | CAct.writeC =>
    if s.lock = some i ∧ s.pcs.get? i = some PC.readDone then
      some ⟨s.lock, s.regs.getD i 0 + 1, s.regs, s.pcs.set i PC.written⟩
    else none
  | CAct.release =>
    if s.lock = some i ∧ s.pcs.get? i = some PC.written then
      some ⟨none, s.counter, s.regs, s.pcs.set i PC.done⟩
    else none

/-- Run a schedule: an arbitrary interleaving of thread actions; an action whose guard
    fails cannot occur in a real execution, so such schedules are invalid. -/
def crun : CState → List (ℕ × CAct) → Option CState
  | s, [] => some s
  | s, (i, a) :: tr =>
    match cstep s i a with
    | some s2 => crun s2 tr
    | none => none

/-- Initial state for n worker threads that each increment the same key exactly once;
    the counter table defaults to zero (defaultdict(int), server.py line 48). -/
def cinit (n : ℕ) : CState := ⟨none, 0, List.replicate n 0, List.replicate n PC.idle⟩

/-- Thread states that can only occur while holding the lock. -/
def pcBusy : PC → Bool
  | PC.locked => true
  | PC.readDone => true
  | PC.written => true
  | _ => false

/-- Thread states whose increment has already reached the shared counter. -/
def pcCounted : PC → Bool
  | PC.written => true
  | PC.done => true
  | _ => false

/-- Invariant of the serialized increment protocol for n threads: the register and pc
    tables have one slot per thread, the shared counter equals the number of threads
    whose increment has landed, only the lock holder is inside the critical section, and
    a holder that has read but not yet written holds the current counter value in its
    register. -/
structure CInv (n : ℕ) (s : CState) : Prop where
  pcsLen : s.pcs.length = n
  regsLen : s.regs.length = n
  counterEq : s.counter = s.pcs.countP pcCounted
  lockBusy : ∀ j p, s.pcs.get? j = some p → pcBusy p = true → s.lock = some j
  regEq : ∀ j, s.lock = some j → s.pcs.get? j = some PC.readDone →
    s.regs.get? j = some s.counter

/-- Concrete configuration for evaluation: root directory /r with the default MIME
    table, limit 5 and a one-second window. -/
def c1cfg : Config := ⟨"/r".data, defaultMime, 5, 1⟩

/-- Concrete filesystem: the root directory and one regular file /r/a.exe whose
    extension is absent from the MIME table. -/
def c1fs : FS :=
  ⟨fun p => p == "/r".data || p == "/r/a.exe".data, fun p => p == "/r".data, fun _ => true⟩

/-- Concrete request for the .exe file. -/
def c1req : Str := "GET /a.exe HTTP/1.1\r\n".data

/-- Concrete configuration whose root /srv/data has a sibling directory sharing its
    name as a string prefix. -/
def c2cfg : Config := ⟨"/srv/data".data, defaultMime, 5, 1⟩

/-- Concrete filesystem containing only the sibling file /srv/data-secret/x.txt, which
    lies outside the root /srv/data. -/
def c2fs : FS :=
  ⟨fun p => p == "/srv/data-secret/x.txt".data, fun _ => false, fun _ => true⟩

/-- Concrete escaping request: /../data-secret/x.txt canonicalizes to
    /srv/data-secret/x.txt, outside the root. -/
def c2req : Str := "GET /../data-secret/x.txt HTTP/1.1\r\n".data

/-- A serialized schedule of two threads incrementing the same key. -/
def c4trace : List (ℕ × CAct) :=
  [(0, CAct.acquire), (0, CAct.readC), (0, CAct.writeC), (0, CAct.release),
   (1, CAct.acquire), (1, CAct.readC), (1, CAct.writeC), (1, CAct.release)]

/-- Concrete filesystem containing the root directory /r and a regular file whose name
    is a single backslash — a legal POSIX filename. -/
def c7fs : FS :=
  ⟨fun p => p == "/r".data || p == "/r/\\".data, fun p => p == "/r".data, fun _ => true⟩

/-- Validity of one canonical path component: nonempty, free of separators and
    backslashes, and not one of the special names '.' and '..'. -/
def goodComp (c : Str) : Prop :=
  c ≠ [] ∧ '/' ∉ c ∧ c ≠ ['.'] ∧ c ≠ ['.', '.'] ∧ '\\' ∉ c

instance (c : Str) : Decidable (goodComp c) := by
  unfold goodComp
  infer_instance

/-- The canonical absolute path with the given components. -/
def mkAbs (comps : List Str) : Str := '/' :: List.intercalate ['/'] comps

theorem isPrefixOf_append_self (l m : Str) : l.isPrefixOf (l ++ m) = true := by
  induction l with
  | nil => simp [List.isPrefixOf]
  | cons a as ih => simp [List.isPrefixOf, ih]

theorem dropWhile_length_le (p : ℚ → Bool) (l : List ℚ) :
    (l.dropWhile p).length ≤ l.length := by
  induction l with
  | nil => simp
  | cons a as ih =>
    rw [List.dropWhile_cons]
    split
    · exact Nat.le_succ_of_le ih
    · simp

/-- Claim C9: the Response Framer is deterministic modulo the clock: two invocations on
    the same status code, status text, content type, content length and extra headers
    produce identical header lines except for the Date line (index 1), and the
    Content-Type and Content-Length lines are fixed functions of those inputs. -/
theorem c9_idempotent_framing (status : ℕ) (statusText contentType : Str)
    (contentLength : ℕ) (extraHeaders : List (Str × Str)) (d1 d2 : Str) :
    (buildHeaderLines status statusText contentType contentLength extraHeaders d1).eraseIdx 1
      = (buildHeaderLines status statusText contentType contentLength extraHeaders d2).eraseIdx 1
  ∧ (buildHeaderLines status statusText contentType contentLength extraHeaders d1).get? 1
      = some ("Date: ".data ++ d1)
  ∧ (buildHeaderLines status statusText contentType contentLength extraHeaders d1).get? 3
      = some ("Content-Type: ".data ++ contentType)
  ∧ (buildHeaderLines status statusText contentType contentLength extraHeaders d1).get? 4
      = some ("Content-Length: ".data ++ natToStr contentLength)
  ∧ buildHeaders status statusText contentType contentLength extraHeaders d1
      = List.intercalate ['\r', '\n']
          (buildHeaderLines status statusText contentType contentLength extraHeaders d1) := by
  exact ⟨rfl, rfl, rfl, rfl, rfl⟩

/-- Claim C10: a worker closes its connection on every exit path, and when the
    admission check passes but the single socket read yields no data at all or a
    first line that strips to empty, no response bytes are written back. -/
theorem c10_silent_close (cfg : Config) (fs : FS) (window : List ℚ) (now : ℚ)
    (requestData : Str) :
    (handleClient cfg fs window now requestData).closed = true
  ∧ ((checkRateLimit cfg.rateLimit cfg.rateWindow window now).allowed = true →
      requestData = [] ∨ pyStrip ((splitSep '\n' requestData).headI) = [] →
      (handleClient cfg fs window now requestData).sent = none) := by
  constructor
  · unfold handleClient
    dsimp only
    split
    · rfl
    · split <;> rfl
  · intro hAllow hEmpty
    have hnr : handleRequest cfg fs requestData = HandlerResult.noResponse := by
      unfold handleRequest
      rcases hEmpty with h | h
      · simp [h]
      · by_cases hrd : requestData = []
        · simp [hrd]
        · simp [hrd, h]
    simp [handleClient, hAllow, hnr]

theorem c10_witness :
    (handleClient c1cfg c1fs [] 0 []).closed = true
  ∧ (handleClient c1cfg c1fs [] 0 []).sent = none :=
  ⟨(c10_silent_close c1cfg c1fs [] 0 []).1,
   (c10_silent_close c1cfg c1fs [] 0 []).2 (by decide) (Or.inl rfl)⟩

theorem handleRequest_eq_of_parse (cfg : Config) (fs : FS) (requestData : Str)
    (hne : requestData ≠ []) (hl : pyStrip ((splitSep '\n' requestData).headI) ≠ []) :
    handleRequest cfg fs requestData
      = match splitWs (pyStrip ((splitSep '\n' requestData).headI)) with
        | [method, rawPath, _] =>
          if method = "GET".data then resolveAndServe cfg fs rawPath
          else HandlerResult.response 405 none
        | _ => HandlerResult.response 400 none := by
  unfold handleRequest
  simp only [if_neg hne, if_neg hl]

/-- Claim C8 (amended): for an admitted connection whose first request line is nonempty
    after stripping, a line that does not split into exactly three whitespace-separated
    tokens yields 400 with no counter key, and a three-token line whose method is not GET
    yields 405 with no counter key; neither outcome resolves a path or touches a key. -/
theorem c8_parse_errors (cfg : Config) (fs : FS) (requestData : Str)
    (hne : requestData ≠ [])
    (hline : pyStrip ((splitSep '\n' requestData).headI) ≠ []) :
    ((splitWs (pyStrip ((splitSep '\n' requestData).headI))).length ≠ 3 →
      handleRequest cfg fs requestData = HandlerResult.response 400 none)
  ∧ (∀ m p v, splitWs (pyStrip ((splitSep '\n' requestData).headI)) = [m, p, v] →
      m ≠ "GET".data → handleRequest cfg fs requestData = HandlerResult.response 405 none) := by
  have he := handleRequest_eq_of_parse cfg fs requestData hne hline
  constructor
  · intro hlen
    rw [he]
    rcases h3 : splitWs (pyStrip ((splitSep '\n' requestData).headI)) with
      _ | ⟨m, _ | ⟨p, _ | ⟨v, rest⟩⟩⟩
    · rfl
    · rfl
    · rfl
    · cases rest with
      | nil => exact absurd (by simp [h3]) hlen
      | cons r rs => rfl
  · intro m p v h3 hm
    rw [he, h3]
    simp [hm]

theorem c8_witness :
    handleRequest c1cfg c1fs ("GETT /a\r\n".data) = HandlerResult.response 400 none
  ∧ handleRequest c1cfg c1fs ("PX /a HTTP/1.1\r\n".data) = HandlerResult.response 405 none :=
  ⟨(c8_parse_errors c1cfg c1fs ("GETT /a\r\n".data) (by decide) (by decide)).1 (by decide),
   (c8_parse_errors c1cfg c1fs ("PX /a HTTP/1.1\r\n".data) (by decide) (by decide)).2
     ("PX".data) ("/a".data) ("HTTP/1.1".data) (by decide) (by decide)⟩

/-- Claim C8 counterexample: a first line that strips to empty (here a single space)
    does not split into three tokens, yet the server sends no response at all — not the
    400 the claim requires. -/
theorem c8_counterexample :
    (splitWs (pyStrip ((splitSep '\n' (" \nGET / HTTP/1.1".data)).headI))).length ≠ 3
  ∧ handleRequest c1cfg c1fs (" \nGET / HTTP/1.1".data) = HandlerResult.noResponse
  ∧ (handleClient c1cfg c1fs [] 0 (" \nGET / HTTP/1.1".data)).sent = none := by
  refine ⟨by decide, by decide, by decide⟩

/-- Claim C5: on a rate-limit rejection the raw retry value equals
    max(0, windowDuration - (now - oldestTimestamp)) where the oldest timestamp is the
    head of the evicted window, and the surfaced Retry-After value is the ceiling with a
    floor of one, hence at least 1 on every 429 response. -/
theorem c5_retry_after (L : ℕ) (W : ℚ) (window : List ℚ) (now : ℚ)
    (hL : 1 ≤ L)
    (hrej : (checkRateLimit L W window now).allowed = false) :
    (∃ t0 rest, window.dropWhile (fun t => decide (W < now - t)) = t0 :: rest
        ∧ (checkRateLimit L W window now).retryAfter = max 0 (W - (now - t0)))
  ∧ retryAfterHeaderVal ((checkRateLimit L W window now).retryAfter)
      = max 1 ⌈(checkRateLimit L W window now).retryAfter⌉
  ∧ 1 ≤ retryAfterHeaderVal ((checkRateLimit L W window now).retryAfter) := by
  rcases hw : window.dropWhile (fun t => decide (W < now - t)) with _ | ⟨t0, rest⟩
  · exfalso
    have : checkRateLimit L W window now
        = ⟨true, 0, (L : ℤ) - (([] : List ℚ).length + 1), [] ++ [now]⟩ := by
      unfold checkRateLimit
      rw [hw, if_neg (by simp; omega)]
    rw [this] at hrej
    exact Bool.noConfusion hrej
  · by_cases hc : L ≤ (t0 :: rest).length
    · have hck : checkRateLimit L W window now
          = ⟨false, max 0 (W - (now - t0)), (L : ℤ) - (t0 :: rest).length, t0 :: rest⟩ := by
        unfold checkRateLimit
        rw [hw, if_pos hc]
      rw [hck]
      exact ⟨⟨t0, rest, rfl, rfl⟩, rfl, le_max_left 1 _⟩
    · exfalso
      have : checkRateLimit L W window now
          = ⟨true, 0, (L : ℤ) - ((t0 :: rest).length + 1), (t0 :: rest) ++ [now]⟩ := by
        unfold checkRateLimit
        rw [hw, if_neg hc]
      rw [this] at hrej
      exact Bool.noConfusion hrej

unseal Rat.sub Rat.add Rat.mul Rat.inv in
theorem c5_witness :
    (∃ t0 rest, ([0] : List ℚ).dropWhile (fun t => decide ((2 : ℚ) < 1 - t)) = t0 :: rest
        ∧ (checkRateLimit 1 2 [0] 1).retryAfter = max 0 (2 - (1 - t0)))
  ∧ retryAfterHeaderVal ((checkRateLimit 1 2 [0] 1).retryAfter)
      = max 1 ⌈(checkRateLimit 1 2 [0] 1).retryAfter⌉
  ∧ 1 ≤ retryAfterHeaderVal ((checkRateLimit 1 2 [0] 1).retryAfter) :=
  c5_retry_after 1 2 [0] 1 (by decide) (by decide)

/-- Claim C1 counterexample: the request GET /a.exe resolves to an existing regular file
    whose extension is absent from the MIME table, is answered 415 Unsupported Media
    Type, and nevertheless increments the counter for its normalized key /a.exe: the
    increment (server.py line 194) runs before the MIME gate inside send_file
    (line 206), so the Counter Store is not left unchanged on a 415 outcome. -/
theorem c1_counterexample :
    handleRequest c1cfg c1fs c1req = HandlerResult.response 415 (some ("/a.exe".data))
  ∧ (handleClient c1cfg c1fs [] 0 c1req).counterKey = some ("/a.exe".data) := by
  refine ⟨by decide, by decide⟩

/-- Claim C2 counterexample: with root /srv/data, the request path
    /../data-secret/x.txt canonicalizes to /srv/data-secret/x.txt — a path outside the
    root that shares the root's string as a prefix — yet the textual startswith check
    (server.py line 172) passes and the file is served with 200, not 403. -/
theorem c2_counterexample :
    resolveFilePath c2cfg (effectivePath ("/../data-secret/x.txt".data))
      = "/srv/data-secret/x.txt".data
  ∧ ("/srv/data/".data).isPrefixOf ("/srv/data-secret/x.txt".data) = false
  ∧ ("/srv/data-secret/x.txt".data ≠ c2cfg.rootDir)
  ∧ handleRequest c2cfg c2fs c2req
      = HandlerResult.response 200 (some ("/../data-secret/x.txt".data)) := by
  refine ⟨by decide, by decide, by decide, by decide⟩

/-- Claim C2 (amended): a request whose canonicalized target fails the textual prefix
    check against the root is answered 403 with no counter key, and the outcome is
    independent of the filesystem — no existence check, read or listing can influence
    it.  (The counterexample shows the textual check is weaker than true containment:
    sibling paths extending the root's name pass it.) -/
theorem c2_containment (cfg : Config) (fs : FS) (rawPath : Str)
    (h : cfg.rootDir.isPrefixOf (resolveFilePath cfg (effectivePath rawPath)) = false) :
    resolveAndServe cfg fs rawPath = HandlerResult.response 403 none
  ∧ (∀ fs2 : FS, resolveAndServe cfg fs2 rawPath = resolveAndServe cfg fs rawPath) := by
  constructor
  · unfold resolveAndServe
    simp [h]
  · intro fs2
    unfold resolveAndServe
    simp [h]

theorem c2_witness :
    resolveAndServe c1cfg c1fs ("/../etc/passwd".data) = HandlerResult.response 403 none :=
  (c2_containment c1cfg c1fs ("/../etc/passwd".data) (by decide)).1

unseal Rat.sub in
/-- Claim C3 counterexample: with limit 1 and window 1, a first request at time 0 is
    admitted; a second request at time 1 — exactly the window duration after the oldest
    accepted timestamp, hence "at least W after" — is still rejected, because eviction
    (server.py line 450) uses a strict comparison. -/
theorem c3_counterexample :
    (checkRateLimit 1 1 [] 0).allowed = true
  ∧ (checkRateLimit 1 1 [] 0).window = [0]
  ∧ ((1 : ℚ) - 0 ≥ 1)
  ∧ (checkRateLimit 1 1 [0] 1).allowed = false := by
  refine ⟨by decide, by decide, by decide, by decide⟩

theorem countP_set_balance (p : PC → Bool) (l : List PC) :
    ∀ (i : ℕ) (a b : PC), l.get? i = some a →
      (l.set i b).countP p + (if p a then 1 else 0)
        = l.countP p + (if p b then 1 else 0) := by
  induction l with
  | nil => intro i a b h; simp at h
  | cons x xs ih =>
    intro i a b h
    cases i with
    | zero =>
      simp only [List.get?] at h
      injection h with h
      subst h
      simp only [List.set, List.countP_cons]
      omega
    | succ m =>
      simp only [List.get?] at h
      have h2 := ih m a b h
      simp only [List.set, List.countP_cons]
      omega

theorem cinv_init (n : ℕ) : CInv n (cinit n) := by
  refine ⟨by simp [cinit], by simp [cinit], ?_, ?_, ?_⟩
  · show (0 : ℕ) = (List.replicate n PC.idle).countP pcCounted
    induction n with
    | zero => rfl
    | succ m ih => simpa [List.replicate_succ, List.countP_cons, pcCounted] using ih
  · intro j p h hb
    have hp : p = PC.idle := List.eq_of_mem_replicate (List.get?_mem h)
    subst hp
    simp [pcBusy] at hb
  · intro j h
    simp [cinit] at h

theorem cstep_inv {n : ℕ} {s s2 : CState} {i : ℕ} {a : CAct}
    (inv : CInv n s) (h : cstep s i a = some s2) : CInv n s2 := by
  cases a with
  | acquire =>
    simp only [cstep] at h
    split at h
    case isTrue hg =>
      obtain ⟨hlock, hpc⟩ := hg
      injection h with h
      subst h
      have hilt : i < s.pcs.length := (List.get?_eq_some.mp hpc).1
      refine ⟨by simpa using inv.pcsLen, inv.regsLen, ?_, ?_, ?_⟩
      · have hb := countP_set_balance pcCounted s.pcs i PC.idle PC.locked hpc
        simp [pcCounted] at hb
        show s.counter = (s.pcs.set i PC.locked).countP pcCounted
        rw [hb]
        exact inv.counterEq
      · intro j p hj hb
        by_cases hji : j = i
        · subst hji; rfl
        · rw [List.get?_set_ne _ _ (fun hh => hji hh.symm)] at hj
          have hlj := inv.lockBusy j p hj hb
          rw [hlock] at hlj
          exact absurd hlj (by simp)
      · intro j hj hr
        injection hj with hj
        subst hj
        rw [List.get?_set_eq_of_lt _ hilt] at hr
        injection hr with hr
        exact absurd hr (by simp)
    case isFalse => exact absurd h (by simp)
  | readC =>
    simp only [cstep] at h
    split at h
    case isTrue hg =>
      obtain ⟨hlock, hpc⟩ := hg
      injection h with h
      subst h
      have hilt : i < s.pcs.length := (List.get?_eq_some.mp hpc).1
      have hiltr : i < s.regs.length := by
        rw [inv.regsLen]
        rw [inv.pcsLen] at hilt
        exact hilt
      refine ⟨by simpa using inv.pcsLen, by simpa using inv.regsLen, ?_, ?_, ?_⟩
      · have hb := countP_set_balance pcCounted s.pcs i PC.locked PC.readDone hpc
        simp [pcCounted] at hb
        show s.counter = (s.pcs.set i PC.readDone).countP pcCounted
        rw [hb]
        exact inv.counterEq
      · intro j p hj hb
        by_cases hji : j = i
        · subst hji; exact hlock
        · rw [List.get?_set_ne _ _ (fun hh => hji hh.symm)] at hj
          exact inv.lockBusy j p hj hb
      · intro j hj hr
        rw [hlock] at hj
        injection hj with hj
        subst hj
        exact List.get?_set_eq_of_lt _ hiltr
    case isFalse => exact absurd h (by simp)
  | writeC =>
    simp only [cstep] at h
    split at h
    case isTrue hg =>
      obtain ⟨hlock, hpc⟩ := hg
      injection h with h
      subst h
      have hilt : i < s.pcs.length := (List.get?_eq_some.mp hpc).1
      have hreg := inv.regEq i hlock hpc
      have hregD : s.regs.getD i 0 = s.counter := by
        rw [List.getD_eq_get?, hreg]
        rfl
      refine ⟨by simpa using inv.pcsLen, inv.regsLen, ?_, ?_, ?_⟩
      · have hb := countP_set_balance pcCounted s.pcs i PC.readDone PC.written hpc
        simp [pcCounted] at hb
        show s.regs.getD i 0 + 1 = (s.pcs.set i PC.written).countP pcCounted
        rw [hregD, hb, inv.counterEq]
      · intro j p hj hb
        by_cases hji : j = i
        · subst hji; exact hlock
        · rw [List.get?_set_ne _ _ (fun hh => hji hh.symm)] at hj
          exact inv.lockBusy j p hj hb
      · intro j hj hr
        rw [hlock] at hj
        injection hj with hj
        subst hj
        rw [List.get?_set_eq_of_lt _ hilt] at hr
        injection hr with hr
        exact absurd hr (by simp)
    case isFalse => exact absurd h (by simp)
  | release =>
    simp only [cstep] at h
    split at h
    case isTrue hg =>
      obtain ⟨hlock, hpc⟩ := hg
      injection h with h
      subst h
      have hilt : i < s.pcs.length := (List.get?_eq_some.mp hpc).1
      refine ⟨by simpa using inv.pcsLen, inv.regsLen, ?_, ?_, ?_⟩
      · have hb := countP_set_balance pcCounted s.pcs i PC.written PC.done hpc
        simp [pcCounted] at hb
        show s.counter = (s.pcs.set i PC.done).countP pcCounted
        have hce := inv.counterEq
        omega
      · intro j p hj hb
        exfalso
        by_cases hji : j = i
        · subst hji
          rw [List.get?_set_eq_of_lt _ hilt] at hj
          injection hj with hj
          subst hj
          simp [pcBusy] at hb
        · rw [List.get?_set_ne _ _ (fun hh => hji hh.symm)] at hj
          have hlj := inv.lockBusy j p hj hb
          rw [hlock] at hlj
          injection hlj with hlj
          exact hji hlj.symm
      · intro j hj
        exact absurd hj (by simp)
    case isFalse => exact absurd h (by simp)

theorem crun_inv {n : ℕ} :
    ∀ (tr : List (ℕ × CAct)) (s s2 : CState), CInv n s → crun s tr = some s2 → CInv n s2 := by
  intro tr
  induction tr with
  | nil =>
    intro s s2 inv h
    simp only [crun] at h
    injection h with h
    subst h
    exact inv
  | cons hd tl ih =>
    intro s s2 inv h
    obtain ⟨i, a⟩ := hd
    simp only [crun] at h
    cases hs : cstep s i a with
    | none => rw [hs] at h; exact absurd h (by simp)
    | some s1 =>
      rw [hs] at h
      exact ih s1 s2 (cstep_inv inv hs) h

/-- Claim C4: under serialized counter mode, any schedule in which n worker threads each
    complete the locked increment protocol for the same key leaves the counter at
    exactly n — no increment is lost, for any n and any interleaving of the workers. -/
theorem c4_serialized_counter (n : ℕ) (tr : List (ℕ × CAct)) (s : CState)
    (hrun : crun (cinit n) tr = some s) (hdone : ∀ p ∈ s.pcs, p = PC.done) :
    s.counter = n := by
  have inv := crun_inv tr (cinit n) s (cinv_init n) hrun
  have hall : s.pcs.countP pcCounted = s.pcs.length :=
    List.countP_eq_length.mpr (fun p hp => by rw [hdone p hp]; rfl)
  rw [inv.counterEq, hall, inv.pcsLen]

theorem c4_witness : CState.counter ⟨none, 2, [0, 1], [PC.done, PC.done]⟩ = 2 :=
  c4_serialized_counter 2 c4trace ⟨none, 2, [0, 1], [PC.done, PC.done]⟩
    (by decide) (by decide)

theorem admitAll_accept_aux (L : ℕ) (W : ℚ) :
    ∀ (ts w : List ℚ) (h0 : ℚ),
      (w ++ ts).length ≤ L →
      (w = [] → ts ≠ [] → h0 = ts.headI) →
      (w ≠ [] → w.headI = h0) →
      (∀ t ∈ ts, t ≤ h0 + W) →
      admitAll L W w ts = (true, w ++ ts) := by
  intro ts
  induction ts with
  | nil =>
    intro w h0 _ _ _ _
    simp [admitAll]
  | cons t ts2 ih =>
    intro w h0 hlen hw0 hwh hts
    have hnoev : w.dropWhile (fun x => decide (W < t - x)) = w := by
      cases w with
      | nil => rfl
      | cons wh wr =>
        have hwhh : wh = h0 := by simpa using hwh (by simp)
        have hle : t ≤ h0 + W := hts t (by simp)
        have hno : ¬ (decide (W < t - wh) = true) := by
          simp only [decide_eq_true_eq]
          rw [hwhh]
          intro hcon
          linarith
        rw [List.dropWhile_cons, if_neg hno]
    have hlt : w.length < L := by
      rw [List.length_append, List.length_cons] at hlen
      omega
    have hstep : checkRateLimit L W w t
        = ⟨true, 0, (L : ℤ) - (w.length + 1), w ++ [t]⟩ := by
      unfold checkRateLimit
      rw [hnoev, if_neg (by omega)]
    have hih : admitAll L W (w ++ [t]) ts2 = (true, (w ++ [t]) ++ ts2) := by
      refine ih (w ++ [t]) h0 ?_ ?_ ?_ ?_
      · simp only [List.length_append, List.length_cons, List.length_nil] at hlen ⊢
        omega
      · intro hcon
        exact absurd hcon (by simp)
      · intro _
        cases w with
        | nil =>
          have := hw0 rfl (by simp)
          simpa using this.symm
        | cons wh wr => simpa using hwh (by simp)
      · intro x hx
        exact hts x (by simp [hx])
    simp only [admitAll]
    rw [hstep, hih]
    simp

/-- Claim C3 (amended): the admit check first evicts timestamps strictly older than
    now - W, rejects exactly when the surviving window holds at least L timestamps
    (equality at the boundary rejects), and otherwise appends now and reports
    remaining = L - newWindowSize.  Consequently L requests all lying within W of the
    first are all admitted, one more request still within W of the oldest is rejected,
    and a request arriving strictly more than W after the oldest accepted timestamp is
    admitted again.  (The unamended claim said "at least W after the oldest"; at exactly
    W the strict eviction comparison keeps the oldest timestamp and the request is
    rejected — see the counterexample.) -/
theorem c3_sliding_window (L : ℕ) (W : ℚ) :
    (∀ (w : List ℚ) (now : ℚ),
        ((checkRateLimit L W w now).allowed = false ↔
          L ≤ (w.dropWhile (fun t => decide (W < now - t))).length)
      ∧ ((checkRateLimit L W w now).allowed = true →
          (checkRateLimit L W w now).window
            = w.dropWhile (fun t => decide (W < now - t)) ++ [now]
          ∧ (checkRateLimit L W w now).remaining
            = (L : ℤ) - ((w.dropWhile (fun t => decide (W < now - t))).length + 1)))
  ∧ (∀ ts : List ℚ, ts.length = L → (∀ t ∈ ts, t ≤ ts.headI + W) →
      admitAll L W [] ts = (true, ts))
  ∧ (∀ (ts : List ℚ) (t2 : ℚ), ts ≠ [] → ts.length = L → t2 - ts.headI ≤ W →
      (checkRateLimit L W ts t2).allowed = false)
  ∧ (∀ (ts : List ℚ) (t3 : ℚ), 1 ≤ L → ts.length = L → W < t3 - ts.headI →
      (checkRateLimit L W ts t3).allowed = true) := by
  refine ⟨?_, ?_, ?_, ?_⟩
  · intro w now
    by_cases hc : L ≤ (w.dropWhile (fun t => decide (W < now - t))).length
    · have hck : (checkRateLimit L W w now).allowed = false := by
        unfold checkRateLimit
        rw [if_pos hc]
      refine ⟨by simp [hck, hc], ?_⟩
      intro hcon
      rw [hck] at hcon
      exact absurd hcon (by simp)
    · have hck : checkRateLimit L W w now
          = ⟨true, 0,
             (L : ℤ) - ((w.dropWhile (fun t => decide (W < now - t))).length + 1),
             w.dropWhile (fun t => decide (W < now - t)) ++ [now]⟩ := by
        unfold checkRateLimit
        rw [if_neg hc]
      rw [hck]
      exact ⟨by simp [hc], fun _ => ⟨rfl, rfl⟩⟩
  · intro ts hlen hts
    have := admitAll_accept_aux L W ts [] ts.headI
      (by simpa using Nat.le_of_eq hlen)
      (fun _ _ => rfl)
      (fun hcon => absurd rfl hcon)
      (by simpa using hts)
    simpa using this
  · intro ts t2 hne hlen hle
    cases ts with
    | nil => exact absurd rfl hne
    | cons h tr =>
      have hnoev : (h :: tr).dropWhile (fun x => decide (W < t2 - x)) = h :: tr := by
        have hno : ¬ (decide (W < t2 - h) = true) := by
          simp only [decide_eq_true_eq]
          intro hcon
          simp only [List.headI] at hle
          linarith
        rw [List.dropWhile_cons, if_neg hno]
      unfold checkRateLimit
      rw [hnoev, if_pos (by rw [hlen])]
  · intro ts t3 hL hlen hgt
    cases ts with
    | nil =>
      rw [List.length_nil] at hlen
      omega
    | cons h tr =>
      have hev : (h :: tr).dropWhile (fun x => decide (W < t3 - x))
          = tr.dropWhile (fun x => decide (W < t3 - x)) := by
        have hyes : decide (W < t3 - h) = true := by
          simp only [decide_eq_true_eq]
          simpa [List.headI] using hgt
        rw [List.dropWhile_cons, if_pos hyes]
      have hsmall : (tr.dropWhile (fun x => decide (W < t3 - x))).length < L := by
        have h1 := dropWhile_length_le (fun x => decide (W < t3 - x)) tr
        rw [List.length_cons] at hlen
        omega
      unfold checkRateLimit
      rw [hev, if_neg (by omega)]

unseal Rat.sub Rat.add in
theorem c3_witness :
    admitAll 2 1 [] [0, 1] = (true, [0, 1])
  ∧ (checkRateLimit 2 1 [0, 1] 1).allowed = false
  ∧ (checkRateLimit 2 1 [0, 1] 3).allowed = true := by
  obtain ⟨h1, h2, h3, h4⟩ := c3_sliding_window 2 1
  exact ⟨h2 [0, 1] (by decide) (by decide),
         h3 [0, 1] 1 (by decide) (by decide) (by decide),
         h4 [0, 1] 3 (by decide) (by decide) (by decide)⟩

theorem resolveAndServe_cases (cfg : Config) (fs : FS) (rawPath : Str) :
    (∃ st, (st = 403 ∨ st = 404)
        ∧ resolveAndServe cfg fs rawPath = HandlerResult.response st none)
  ∨ (∃ st k, (st = 200 ∨ st = 415 ∨ st = 500)
        ∧ resolveAndServe cfg fs rawPath = HandlerResult.response st (some k)) := by
  unfold resolveAndServe
  dsimp only
  split
  · exact Or.inl ⟨403, Or.inl rfl, rfl⟩
  · split
    · exact Or.inl ⟨404, Or.inr rfl, rfl⟩
    · split
      · exact Or.inr ⟨200, _, Or.inl rfl, rfl⟩
      · split
        · exact Or.inr ⟨415, _, Or.inr (Or.inl rfl), rfl⟩
        · split
          · exact Or.inr ⟨200, _, Or.inl rfl, rfl⟩
          · exact Or.inr ⟨500, _, Or.inr (Or.inr rfl), rfl⟩

theorem handleRequest_cases (cfg : Config) (fs : FS) (rd : Str) :
    handleRequest cfg fs rd = HandlerResult.noResponse
  ∨ (∃ st, (st = 400 ∨ st = 403 ∨ st = 404 ∨ st = 405)
        ∧ handleRequest cfg fs rd = HandlerResult.response st none)
  ∨ (∃ st k, (st = 200 ∨ st = 415 ∨ st = 500)
        ∧ handleRequest cfg fs rd = HandlerResult.response st (some k)) := by
  unfold handleRequest
  dsimp only
  split
  · exact Or.inl rfl
  · split
    · exact Or.inl rfl
    · split
      · split
        · rcases resolveAndServe_cases cfg fs _ with ⟨st, hst, he⟩ | ⟨st, k, hst, he⟩
          · exact Or.inr (Or.inl ⟨st, by tauto, he⟩)
          · exact Or.inr (Or.inr ⟨st, k, hst, he⟩)
        · exact Or.inr (Or.inl ⟨405, by tauto, rfl⟩)
      · exact Or.inr (Or.inl ⟨400, by tauto, rfl⟩)

/-- Claim C1 (amended): a request increments exactly one counter key precisely when it
    reaches an existing in-root target — that is, when its response status is 200, 415
    or 500; the increment at server.py line 194 happens before send_file's MIME gate at
    line 206, so a 415 outcome does increment its key.  No counter is touched on 400,
    403, 404, 405, a 429 admission rejection, or a silent close. -/
theorem c1_counter_increment (cfg : Config) (fs : FS) (window : List ℚ) (now : ℚ)
    (rd : Str) :
    ((handleClient cfg fs window now rd).sent = none →
      (handleClient cfg fs window now rd).counterKey = none)
  ∧ (∀ st, (∃ hs, (handleClient cfg fs window now rd).sent = some (st, hs)) →
      ((handleClient cfg fs window now rd).counterKey.isSome = true
        ↔ (st = 200 ∨ st = 415 ∨ st = 500))) := by
  unfold handleClient
  dsimp only
  split
  · constructor
    · intro h
      exact absurd h (by simp)
    · rintro st ⟨hs, hsent⟩
      simp only [Option.some.injEq, Prod.mk.injEq] at hsent
      obtain ⟨h1, _⟩ := hsent
      subst h1
      simp
  · rcases hr : handleRequest cfg fs rd with _ | ⟨st2, key⟩
    · simp only [hr]
      constructor
      · intro _
        trivial
      · rintro st ⟨hs, hsent⟩
        simp at hsent
    · simp only [hr]
      constructor
      · intro h
        exact absurd h (by simp)
      · rintro st ⟨hs, hsent⟩
        simp only [Option.some.injEq, Prod.mk.injEq] at hsent
        obtain ⟨h1, _⟩ := hsent
        subst h1
        rcases handleRequest_cases cfg fs rd with hnr | ⟨st3, hst3, he⟩ | ⟨st3, k3, hst3, he⟩
        · rw [hr] at hnr
          exact absurd hnr (by simp)
        · rw [hr] at he
          injection he with e1 e2
          subst e1
          subst e2
          simp only [Option.isSome_none]
          constructor
          · intro hcon
            exact absurd hcon (by simp)
          · intro hcon
            rcases hst3 with h | h | h | h <;> subst h <;> rcases hcon with h | h | h <;> omega
        · rw [hr] at he
          injection he with e1 e2
          subst e1
          subst e2
          simp only [Option.isSome_some]
          constructor
          · intro _
            exact hst3
          · intro _
            trivial

theorem c1_witness :
    ((handleClient c1cfg c1fs [] 0 c1req).counterKey).isSome = true := by
  have h := (c1_counter_increment c1cfg c1fs [] 0 c1req).2 415 ⟨_, rfl⟩
  exact h.mpr (Or.inr (Or.inl rfl))

/-- Claim C6: every response the server sends carries the Date, Server, Content-Type,
    Content-Length and Connection: close header lines plus the X-RateLimit-Limit and
    X-RateLimit-Window extra headers; X-RateLimit-Remaining is attached to every
    response except the hard 429 admission rejection, which carries Retry-After instead
    and no remaining count. -/
theorem c6_response_headers (cfg : Config) (fs : FS) (window : List ℚ) (now : ℚ)
    (rd : Str) (st : ℕ) (extra : List (Str × Str)) (statusText contentType : Str)
    (contentLength : ℕ) (date : Str)
    (h : (handleClient cfg fs window now rd).sent = some (st, extra)) :
    (∃ l ∈ buildHeaderLines st statusText contentType contentLength extra date,
        ("Date: ".data).isPrefixOf l = true)
  ∧ ("Server: ConcurrentHTTPServer/2.0".data)
      ∈ buildHeaderLines st statusText contentType contentLength extra date
  ∧ (∃ l ∈ buildHeaderLines st statusText contentType contentLength extra date,
        ("Content-Type: ".data).isPrefixOf l = true)
  ∧ (∃ l ∈ buildHeaderLines st statusText contentType contentLength extra date,
        ("Content-Length: ".data).isPrefixOf l = true)
  ∧ ("Connection: close".data)
      ∈ buildHeaderLines st statusText contentType contentLength extra date
  ∧ hKeyLimit ∈ extra.map Prod.fst
  ∧ hKeyWindow ∈ extra.map Prod.fst
  ∧ (st ≠ 429 → hKeyRemaining ∈ extra.map Prod.fst)
  ∧ (st = 429 → hKeyRetryAfter ∈ extra.map Prod.fst
      ∧ hKeyRemaining ∉ extra.map Prod.fst) := by
  refine ⟨⟨"Date: ".data ++ date, by simp [buildHeaderLines], isPrefixOf_append_self _ _⟩,
    by simp [buildHeaderLines],
    ⟨"Content-Type: ".data ++ contentType, by simp [buildHeaderLines],
      isPrefixOf_append_self _ _⟩,
    ⟨"Content-Length: ".data ++ natToStr contentLength, by simp [buildHeaderLines],
      isPrefixOf_append_self _ _⟩,
    by simp [buildHeaderLines], ?_⟩
  unfold handleClient at h
  dsimp only at h
  split at h
  · simp only [Option.some.injEq, Prod.mk.injEq] at h
    obtain ⟨h1, h2⟩ := h
    subst h1
    subst h2
    refine ⟨by simp [buildRateHeaders], by simp [buildRateHeaders], ?_, ?_⟩
    · intro hne
      exact absurd rfl hne
    · intro _
      refine ⟨by simp [buildRateHeaders], ?_⟩
      simp only [buildRateHeaders, List.map_append, List.map_cons, List.map_nil]
      intro hmem
      have : hKeyRemaining = hKeyLimit ∨ hKeyRemaining = hKeyWindow
          ∨ hKeyRemaining = hKeyRetryAfter := by
        simpa using hmem
      rcases this with hh | hh | hh <;> exact absurd hh (by decide)
  · rcases hr : handleRequest cfg fs rd with _ | ⟨st2, key⟩
    · rw [hr] at h
      simp at h
    · rw [hr] at h
      simp only [Option.some.injEq, Prod.mk.injEq] at h
      obtain ⟨h1, h2⟩ := h
      subst h1
      subst h2
      have hne429 : st2 ≠ 429 := by
        rcases handleRequest_cases cfg fs rd with hnr | ⟨st3, hst3, he⟩ | ⟨st3, k3, hst3, he⟩
        · rw [hr] at hnr
          exact absurd hnr (by simp)
        · rw [hr] at he
          injection he with e1 _
          subst e1
          rcases hst3 with hh | hh | hh | hh <;> omega
        · rw [hr] at he
          injection he with e1 _
          subst e1
          rcases hst3 with hh | hh | hh <;> omega
      refine ⟨by simp [buildRateHeaders], by simp [buildRateHeaders], ?_, ?_⟩
      · intro _
        simp [buildRateHeaders]
      · intro hcon
        exact absurd hcon hne429

theorem c6_witness :
    ("Connection: close".data) ∈ buildHeaderLines 415 ("Unsupported Media Type".data)
        ("text/html".data) 100 (buildRateHeaders c1cfg (some 4)) ("D".data)
  ∧ hKeyRemaining ∈ (buildRateHeaders c1cfg (some 4)).map Prod.fst := by
  have h := c6_response_headers c1cfg c1fs [] 0 c1req 415 (buildRateHeaders c1cfg (some 4))
      ("Unsupported Media Type".data) ("text/html".data) 100 ("D".data) (by rfl)
  exact ⟨h.2.2.2.2.1, h.2.2.2.2.2.2.2.1 (by decide)⟩

theorem splitSep_sepFree (c : Str) (h : '/' ∉ c) : splitSep '/' c = [c] := by
  induction c with
  | nil => rfl
  | cons x xs ih =>
    have hx : ¬ x = '/' := fun hh => h (by simp [hh])
    have hxs : '/' ∉ xs := fun hh => h (by simp [hh])
    simp only [splitSep]
    rw [if_neg hx, ih hxs]

theorem splitSep_append (c rest : Str) (h : '/' ∉ c) :
    splitSep '/' (c ++ '/' :: rest) = c :: splitSep '/' rest := by
  induction c with
  | nil =>
    simp only [List.nil_append, splitSep, if_pos]
  | cons x xs ih =>
    have hx : ¬ x = '/' := fun hh => h (by simp [hh])
    have hxs : '/' ∉ xs := fun hh => h (by simp [hh])
    simp only [List.cons_append, splitSep, List.append_eq]
    rw [if_neg hx, ih hxs]

theorem intercalate_single (c : Str) : List.intercalate ['/'] [c] = c := by
  simp [List.intercalate]

theorem intercalate_cons_cons (c d : Str) (tl : List Str) :
    List.intercalate ['/'] (c :: d :: tl)
      = c ++ '/' :: List.intercalate ['/'] (d :: tl) := by
  simp [List.intercalate, List.intersperse_cons_cons]

theorem splitSep_intercalate (cs : List Str) (hne : cs ≠ [])
    (h : ∀ c ∈ cs, '/' ∉ c) :
    splitSep '/' (List.intercalate ['/'] cs) = cs := by
  induction cs with
  | nil => exact absurd rfl hne
  | cons c tl ih =>
    cases tl with
    | nil =>
      rw [intercalate_single]
      exact splitSep_sepFree c (h c (by simp))
    | cons d tl2 =>
      rw [intercalate_cons_cons, splitSep_append c _ (h c (by simp)),
        ih (by simp) (fun x hx => h x (by simp [hx]))]

theorem intercalate_ne_nil (cs : List Str) (hne : cs ≠ [])
    (h : ∀ c ∈ cs, c ≠ []) : List.intercalate ['/'] cs ≠ [] := by
  cases cs with
  | nil => exact absurd rfl hne
  | cons c tl =>
    cases tl with
    | nil =>
      rw [intercalate_single]
      exact h c (by simp)
    | cons d tl2 =>
      rw [intercalate_cons_cons]
      have hc := h c (by simp)
      cases c with
      | nil => exact absurd rfl hc
      | cons ch ct => simp

theorem intercalate_not_mem (cs : List Str) (ch : Char) (hch : ch ≠ '/')
    (h : ∀ c ∈ cs, ch ∉ c) : ch ∉ List.intercalate ['/'] cs := by
  induction cs with
  | nil => simp [List.intercalate]
  | cons c tl ih =>
    cases tl with
    | nil =>
      rw [intercalate_single]
      exact h c (by simp)
    | cons d tl2 =>
      rw [intercalate_cons_cons]
      intro hmem
      rcases List.mem_append.mp hmem with hm | hm
      · exact h c (by simp) hm
      · rcases List.mem_cons.mp hm with hm2 | hm2
        · exact hch hm2
        · exact ih (fun x hx => h x (by simp [hx])) hm2

theorem mem_of_getLast_eq {l : Str} {a : Char} (h : l.getLast? = some a) : a ∈ l := by
  obtain ⟨hne, heq⟩ := List.mem_getLast?_eq_getLast (by simpa [Option.mem_def] using h)
  rw [heq]
  exact List.getLast_mem hne

theorem intercalate_getLast (cs : List Str) (hne : cs ≠ [])
    (h : ∀ c ∈ cs, c ≠ [] ∧ '/' ∉ c) :
    (List.intercalate ['/'] cs).getLast? ≠ some '/' := by
  induction cs with
  | nil => exact absurd rfl hne
  | cons c tl ih =>
    cases tl with
    | nil =>
      rw [intercalate_single]
      intro hcon
      exact (h c (by simp)).2 (mem_of_getLast_eq hcon)
    | cons d tl2 =>
      rw [intercalate_cons_cons]
      have hm : List.intercalate ['/'] (d :: tl2) ≠ [] :=
        intercalate_ne_nil _ (by simp) (fun x hx2 => (h x (by simp [hx2])).1)
      obtain ⟨y, hy⟩ := Option.isSome_iff_exists.mp (List.getLast?_isSome.mpr hm)
      have hgy : (c ++ '/' :: List.intercalate ['/'] (d :: tl2)).getLast? = some y := by
        have hsplit : c ++ '/' :: List.intercalate ['/'] (d :: tl2)
            = (c ++ ['/']) ++ List.intercalate ['/'] (d :: tl2) := by simp
        rw [hsplit, List.getLast?_append, hy]
        rfl
      rw [hgy]
      have ihy := ih (by simp) (fun x hx2 => h x (by simp [hx2]))
      rw [hy] at ihy
      exact ihy

theorem intercalate_ne_dot (cs : List Str) (hne : cs ≠ [])
    (h : ∀ c ∈ cs, goodComp c) : List.intercalate ['/'] cs ≠ ['.'] := by
  cases cs with
  | nil => exact absurd rfl hne
  | cons c tl =>
    cases tl with
    | nil =>
      rw [intercalate_single]
      exact (h c (by simp)).2.2.1
    | cons d tl2 =>
      rw [intercalate_cons_cons]
      intro hcon
      have hlen := congrArg List.length hcon
      simp only [List.length_append, List.length_cons, List.length_nil] at hlen
      have hc1 : c ≠ [] := (h c (by simp)).1
      have hcl : 1 ≤ c.length := List.length_pos.mpr hc1
      omega

theorem intercalate_head (ch : Char) (ct : Str) (tl : List Str) :
    ∃ t, List.intercalate ['/'] ((ch :: ct) :: tl) = ch :: t := by
  cases tl with
  | nil => exact ⟨ct, intercalate_single _⟩
  | cons d tl2 =>
    refine ⟨ct ++ '/' :: List.intercalate ['/'] (d :: tl2), ?_⟩
    rw [intercalate_cons_cons]
    rfl

theorem isPrefixOf_slash_cons (ch : Char) (t : Str) (h : ch ≠ '/') :
    (['/'] : Str).isPrefixOf (ch :: t) = false := by
  simp only [List.isPrefixOf, Bool.and_eq_false_iff]
  left
  exact beq_eq_false_iff_ne.mpr (fun hh => h hh.symm)

theorem normParts_good (cs : List Str) (h : ∀ c ∈ cs, goodComp c) :
    ∀ (acc : List Str) (initS : Bool), normParts initS acc cs = acc ++ cs := by
  induction cs with
  | nil =>
    intro acc initS
    simp [normParts]
  | cons c tl ih =>
    intro acc initS
    have hc := h c (by simp)
    simp only [normParts]
    rw [if_neg (by push_neg; exact ⟨hc.1, hc.2.2.1⟩), if_pos hc.2.2.2.1,
      ih (fun x hx => h x (by simp [hx]))]
    simp

theorem pathComps_mkAbs (cs : List Str) (h : ∀ c ∈ cs, goodComp c) :
    (splitSep '/' (mkAbs cs)).filter (fun c => !c.isEmpty) = cs := by
  unfold mkAbs
  have h1 : splitSep '/' ('/' :: List.intercalate ['/'] cs)
      = [] :: splitSep '/' (List.intercalate ['/'] cs) := by
    simp [splitSep]
  rw [h1]
  cases cs with
  | nil => rfl
  | cons c tl =>
    rw [splitSep_intercalate (c :: tl) (by simp) (fun x hx => (h x hx).2.1)]
    have hall : ∀ x ∈ c :: tl, (!x.isEmpty) = true := by
      intro x hx
      have hxne := (h x hx).1
      simp [List.isEmpty_iff, hxne]
    have hfilter : List.filter (fun c => !List.isEmpty c) (c :: tl) = c :: tl :=
      List.filter_eq_self.mpr hall
    simp [List.filter_cons, hfilter]

theorem normpath_mkAbs (cs : List Str) (h : ∀ c ∈ cs, goodComp c) :
    pathNormpath (mkAbs cs) = mkAbs cs := by
  unfold mkAbs
  have hpne : ('/' :: List.intercalate ['/'] cs : Str) ≠ [] := by simp
  have hinit : (['/'] : Str).isPrefixOf ('/' :: List.intercalate ['/'] cs) = true := by
    simp [List.isPrefixOf]
  have hdbl : (['/', '/'] : Str).isPrefixOf ('/' :: List.intercalate ['/'] cs) = false := by
    cases cs with
    | nil => rfl
    | cons c tl =>
      have hc := h c (by simp)
      cases c with
      | nil => exact absurd rfl hc.1
      | cons ch ct =>
        obtain ⟨t, ht⟩ := intercalate_head ch ct tl
        rw [ht]
        simp only [List.isPrefixOf, Bool.and_eq_false_iff]
        right
        left
        exact beq_eq_false_iff_ne.mpr (fun hh => hc.2.1 (by simp [hh.symm]))
  have hsplit : splitSep '/' ('/' :: List.intercalate ['/'] cs)
      = [] :: splitSep '/' (List.intercalate ['/'] cs) := by
    simp [splitSep]
  unfold pathNormpath
  rw [if_neg hpne]
  simp only [hinit, hdbl, hsplit]
  cases cs with
  | nil =>
    simp [splitSep, normParts, List.intercalate]
  | cons c tl =>
    rw [splitSep_intercalate (c :: tl) (by simp) (fun x hx => (h x hx).2.1)]
    have hnp : normParts true [] ([] :: c :: tl) = c :: tl := by
      have h0 : normParts true [] ([] :: c :: tl) = normParts true [] (c :: tl) := rfl
      rw [h0]
      simpa using normParts_good (c :: tl) h [] true
    rw [hnp]
    simp

theorem commonPrefixLen_append (l m : List Str) : commonPrefixLen l (l ++ m) = l.length := by
  induction l with
  | nil => simp [commonPrefixLen]
  | cons a as ih => simp [commonPrefixLen, ih]

theorem relpathFrom_self (p : Str) : relpathFrom p p = ['.'] := by
  unfold relpathFrom
  have hcp : ∀ X : List Str, commonPrefixLen X X = X.length := by
    intro X
    have := commonPrefixLen_append X []
    simpa using this
  simp [hcp, List.drop_length]

theorem relpathFrom_mkAbs (rs cs : List Str) (hrs : ∀ c ∈ rs, goodComp c)
    (hcs : ∀ c ∈ cs, goodComp c) (hne : cs ≠ []) :
    relpathFrom (mkAbs (rs ++ cs)) (mkAbs rs) = List.intercalate ['/'] cs := by
  have hgood : ∀ c ∈ rs ++ cs, goodComp c := by
    intro c hc
    rcases List.mem_append.mp hc with hm | hm
    · exact hrs c hm
    · exact hcs c hm
  unfold relpathFrom
  simp only [pathAbspath]
  rw [normpath_mkAbs (rs ++ cs) hgood, normpath_mkAbs rs hrs,
    pathComps_mkAbs (rs ++ cs) hgood, pathComps_mkAbs rs hrs,
    commonPrefixLen_append rs cs]
  simp only [Nat.sub_self, List.replicate_zero, List.nil_append, List.drop_left]
  rw [if_neg hne]

theorem map_backslash_id (l : Str) (h : '\\' ∉ l) :
    l.map (fun c => if c = '\\' then '/' else c) = l := by
  induction l with
  | nil => rfl
  | cons x xs ih =>
    have hx : ¬ x = '\\' := fun hh => h (by simp [hh])
    simp [ih (fun hh => h (by simp [hh])), hx]

theorem getLast_cons_of_ne_nil (x : Char) (l : Str) (h : l ≠ []) :
    (x :: l).getLast? = l.getLast? := by
  have hx : (x :: l : Str) = [x] ++ l := rfl
  rw [hx, List.getLast?_append]
  obtain ⟨y, hy⟩ := Option.isSome_iff_exists.mp (List.getLast?_isSome.mpr h)
  rw [hy]
  rfl

theorem normalizeCounterKey_eval (rootDir absPath : Str) (I : Str) (b : Bool)
    (hrel : relpathFrom absPath rootDir = I)
    (hbs : '\\' ∉ I) (hdot : I ≠ ['.']) (hne : I ≠ [])
    (hpre : (['/'] : Str).isPrefixOf I = false)
    (hlast : I.getLast? ≠ some '/') :
    (b = false → normalizeCounterKey rootDir absPath b = '/' :: I)
  ∧ (b = true → normalizeCounterKey rootDir absPath b = ('/' :: I) ++ ['/']) := by
  unfold normalizeCounterKey
  dsimp only
  rw [hrel, map_backslash_id I hbs]
  have hc2 : ¬ (I = ['.'] ∨ I = []) := by
    push_neg
    exact ⟨hdot, hne⟩
  rw [if_neg hc2]
  have hc3 : ¬ ((['/'] : Str).isPrefixOf I = true) := by
    rw [hpre]
    simp
  rw [if_pos hc3, if_pos hne]
  have hlast2 : ('/' :: I).getLast? ≠ some '/' := by
    rw [getLast_cons_of_ne_nil '/' I hne]
    exact hlast
  cases b with
  | false =>
    refine ⟨fun _ => ?_, fun hcon => absurd hcon (by simp)⟩
    have hc4 : ¬ ((false = true) ∧ ¬ ('/' :: I).getLast? = some '/') := by simp
    rw [if_neg hc4]
    have hc5 : ¬ ((¬ false = true) ∧ ('/' :: I).getLast? = some '/') := by
      simp [hlast2]
    rw [if_neg hc5]
    have hc6 : ¬ (('/' :: I : Str) = []) := by simp
    rw [if_neg hc6]
  | true =>
    refine ⟨fun hcon => absurd hcon (by simp), fun _ => ?_⟩
    have hc4 : (true = true) ∧ ¬ ('/' :: I).getLast? = some '/' := ⟨rfl, hlast2⟩
    rw [if_pos hc4]
    have hc5 : ¬ ((¬ true = true) ∧ (('/' :: I) ++ ['/']).getLast? = some '/') := by simp
    rw [if_neg hc5]
    have hc6 : ¬ ((('/' :: I) ++ ['/'] : Str) = []) := by simp
    rw [if_neg hc6]

theorem key_dir_ends_slash (rootDir absPath : Str) :
    (normalizeCounterKey rootDir absPath true).getLast? = some '/' := by
  unfold normalizeCounterKey
  dsimp only
  generalize List.map (fun c => if c = '\\' then '/' else c) (relpathFrom absPath rootDir) = r1
  generalize (if r1 = ['.'] ∨ r1 = [] then ([] : Str) else r1) = r2
  generalize (if ¬ (['/'] : Str).isPrefixOf r2 = true then
    (if r2 ≠ [] then '/' :: r2 else ['/']) else r2) = r3
  by_cases hg : r3.getLast? = some '/'
  · have h4 : ¬ (true = true ∧ ¬ r3.getLast? = some '/') := fun hc => hc.2 hg
    rw [if_neg h4]
    have h5 : ¬ (¬ true = true ∧ r3.getLast? = some '/') := fun hc => hc.1 rfl
    rw [if_neg h5]
    by_cases hnil : r3 = []
    · rw [if_pos hnil]
      rfl
    · rw [if_neg hnil]
      exact hg
  · have h4 : true = true ∧ ¬ r3.getLast? = some '/' := ⟨rfl, hg⟩
    rw [if_pos h4]
    have h5 : ¬ (¬ true = true ∧ (r3 ++ ['/']).getLast? = some '/') := fun hc => hc.1 rfl
    rw [if_neg h5]
    have hnil : ¬ (r3 ++ ['/'] : Str) = [] := by simp
    rw [if_neg hnil]
    exact List.getLast?_concat r3

theorem key_root_self (rootDir : Str) (b : Bool) :
    normalizeCounterKey rootDir rootDir b = ['/'] := by
  unfold normalizeCounterKey
  dsimp only
  rw [relpathFrom_self]
  cases b <;> decide

/-- Claim C7 counterexample: a regular file named with a single backslash directly
    under the root /r receives the counter key '/', which ends with a slash even though
    the target is a file: os.path.relpath yields the single character '\', the
    separator conversion at server.py line 417 rewrites it to '/', the file-side
    rstrip('/') at line 425 empties the string, and line 426 falls back to '/'.  The
    input is reachable: GET /%5C percent-decodes to that file, is answered 415 (no
    extension in the MIME table), and increments the key '/' — so a file's key can end
    with a slash, refuting the slash-iff-directory part of the claim. -/
theorem c7_counterexample :
    normalizeCounterKey ("/r".data) ("/r/\\".data) false = "/".data
  ∧ (("/".data : Str).getLast? = some '/')
  ∧ handleRequest c1cfg c7fs ("GET /%5C HTTP/1.1\r\n".data)
      = HandlerResult.response 415 (some ("/".data)) := by
  refine ⟨by decide, by decide, by decide⟩

/-- Claim C7 (amended): for targets whose root-relative components are canonical names
    free of backslashes, the counter key is computed relative to the root with '/' as
    separator and a leading '/', the root itself maps to the key '/', a directory key
    always ends with '/', and a file key never does — so under that restriction the key
    ends with a slash exactly for directories.  The backslash restriction is forced by
    the separator conversion of server.py line 417, under which a file named '\'
    collapses to the key '/' (see the counterexample). -/
theorem c7_counter_key (rootA rootB : Str) (rs cs : List Str) (b : Bool)
    (hrs : ∀ c ∈ rs, goodComp c) (hcs : ∀ c ∈ cs, goodComp c) (hne : cs ≠ []) :
    normalizeCounterKey rootA rootA b = ['/']
  ∧ (normalizeCounterKey rootA rootB true).getLast? = some '/'
  ∧ normalizeCounterKey (mkAbs rs) (mkAbs (rs ++ cs)) false
      = '/' :: List.intercalate ['/'] cs
  ∧ (normalizeCounterKey (mkAbs rs) (mkAbs (rs ++ cs)) false).getLast? ≠ some '/'
  ∧ normalizeCounterKey (mkAbs rs) (mkAbs (rs ++ cs)) true
      = ('/' :: List.intercalate ['/'] cs) ++ ['/'] := by
  have hI : relpathFrom (mkAbs (rs ++ cs)) (mkAbs rs) = List.intercalate ['/'] cs :=
    relpathFrom_mkAbs rs cs hrs hcs hne
  have hbs : '\\' ∉ List.intercalate ['/'] cs :=
    intercalate_not_mem cs '\\' (by decide) (fun c hc => (hcs c hc).2.2.2.2)
  have hdot : List.intercalate ['/'] cs ≠ ['.'] := intercalate_ne_dot cs hne hcs
  have hIne : List.intercalate ['/'] cs ≠ [] :=
    intercalate_ne_nil cs hne (fun c hc => (hcs c hc).1)
  have hlast : (List.intercalate ['/'] cs).getLast? ≠ some '/' :=
    intercalate_getLast cs hne (fun c hc => ⟨(hcs c hc).1, (hcs c hc).2.1⟩)
  have hpre : (['/'] : Str).isPrefixOf (List.intercalate ['/'] cs) = false := by
    cases cs with
    | nil => exact absurd rfl hne
    | cons c tl =>
      have hc := hcs c (by simp)
      cases c with
      | nil => exact absurd rfl hc.1
      | cons ch ct =>
        obtain ⟨t, ht⟩ := intercalate_head ch ct tl
        rw [ht]
        exact isPrefixOf_slash_cons ch t (fun hh => hc.2.1 (by simp [hh]))
  have hfile := (normalizeCounterKey_eval (mkAbs rs) (mkAbs (rs ++ cs))
    (List.intercalate ['/'] cs) false hI hbs hdot hIne hpre hlast).1 rfl
  have hdir := (normalizeCounterKey_eval (mkAbs rs) (mkAbs (rs ++ cs))
    (List.intercalate ['/'] cs) true hI hbs hdot hIne hpre hlast).2 rfl
  refine ⟨key_root_self rootA b, key_dir_ends_slash rootA rootB, hfile, ?_, hdir⟩
  rw [hfile, getLast_cons_of_ne_nil '/' _ hIne]
  exact hlast

theorem c7_witness :
    normalizeCounterKey (mkAbs [['r']]) (mkAbs ([['r']] ++ [['a']])) false
      = '/' :: List.intercalate ['/'] [['a']]
  ∧ normalizeCounterKey (mkAbs [['r']]) (mkAbs ([['r']] ++ [['a']])) true
      = ('/' :: List.intercalate ['/'] [['a']]) ++ ['/']
  ∧ normalizeCounterKey (mkAbs [['r']]) (mkAbs [['r']]) true = ['/'] := by
  have h := c7_counter_key (mkAbs [['r']]) (mkAbs [['r']]) [['r']] [['a']] true
    (by decide) (by decide) (by decide)
  exact ⟨h.2.2.1, h.2.2.2.2, h.1⟩
